import Mathlib

/-!
Verification of `examples/summarization/utils.py`: a shallow embedding of the
summarization data utilities (cached file encoding, the `SummarizationDataset`
wrapper with its collate operation, and the `SortishSampler` batching
heuristic), together with proofs of the specified properties.

Modelling conventions:
* tensors of token ids / attention masks are `List Nat`;
* the external tokenizer is an abstract function `String → Nat → Bool → Encoding`
  (text, max length, pad-to-max-length flag);
* the file system touched by `encode_file` (`open`, `torch.load`, `torch.save`)
  is an association list from paths to file contents, newest entry first;
* `numpy` randomness (`np.random.permutation`) is made explicit: the initial
  index permutation and the batch shuffle are parameters, and theorems
  quantify over all values permitted to them;
* Python's stable `sorted(..., key, reverse=True)` is modelled by a stable
  insertion sort descending on the key.
-/

namespace SummarizationUtils

/-- Result of tokenizing one line: `input_ids` and `attention_mask` after the
singleton batch dimension of `batch_encode_plus([text], ...)` is squeezed. -/
structure Encoding where
  input_ids : List Nat
  attention_mask : List Nat
deriving DecidableEq

/-- The record returned by `SummarizationDataset.__getitem__`. -/
structure Item where
  input_ids : List Nat
  attention_mask : List Nat
  decoder_input_ids : List Nat
deriving DecidableEq

/-- The batched record returned by `SummarizationDataset.collate_fn`. -/
structure CollatedBatch where
  input_ids : List (List Nat)
  attention_mask : List (List Nat)
  decoder_input_ids : List (List Nat)
deriving DecidableEq

/-- Characters removed by Python's `str.strip` (ASCII whitespace). -/
def isStripSpace (c : Char) : Bool :=
  (c = ' ') || (c = '\t') || (c = '\n') || (c = '\r') || (c = '\x0b') || (c = '\x0c')

/-- Model of Python's `str.strip`: drop leading and trailing whitespace. -/
def pyStrip (s : String) : String :=
  String.mk (((s.data.dropWhile isStripSpace).reverse.dropWhile isStripSpace).reverse)

/-- The module-level constant `T5_PREFIX = "summarize: "`. -/
def T5_PREFIX : String := "summarize: "

/-- Contents of a file on disk: either a newline-delimited text file or a
pickled list of encoded examples (what `torch.save` wrote). -/
inductive FsFile where
  | text (lines : List String)
  | cache (examples : List Encoding)
deriving DecidableEq

/-- The file system: an association list from paths to contents, newest first. -/
abbrev FS := List (String × FsFile)

/-- Look a path up (`Path.exists` / `open` / `torch.load`). -/
def FS.lookup (fs : FS) (p : String) : Option FsFile :=
  match fs with
  | [] => none
  | (q, f) :: rest => if q = p then some f else FS.lookup rest p

/-- `torch.save`: (over)write the file at a path. -/
def FS.save (fs : FS) (p : String) (f : FsFile) : FS := (p, f) :: fs

/-- The external tokenizer: an encode function (text, max length, pad flag)
plus the information whether it is a `BartTokenizer` instance. -/
structure Tokenizer where
  encode : String → Nat → Bool → Encoding
  isBart : Bool

/-- The cache path derivation `f"{data_path}_{tok_name}{max_length}.pkl"`. -/
def cachePath (data_path : String) (tok_name : String) (max_length : Nat) : String :=
  data_path ++ "_" ++ tok_name ++ toString max_length ++ ".pkl"

/-- Model of `encode_file`.  Returns the example list, the file system after
the call, and the number of tokenizer invocations performed, or `none` when
the underlying file operations would raise. -/
def encode_file (tokenizer : Tokenizer) (fs : FS) (data_path : String) (max_length : Nat)
    (pad_to_max_length : Bool) (overwrite_cache : Bool) (pfx : String) (tok_name : String) :
    Option (List Encoding × FS × Nat) :=
  let cache_path := cachePath data_path tok_name max_length
  if overwrite_cache = false ∧ (fs.lookup cache_path).isSome then
    match fs.lookup cache_path with
    | some (FsFile.cache examples) => some (examples, fs, 0)
    | _ => none
  else
    match fs.lookup data_path with
    | some (FsFile.text lines) =>
      let lns := (lines.map pyStrip).map (fun text => pfx ++ text)
      let examples := lns.map (fun text => tokenizer.encode text max_length pad_to_max_length)
      some (examples, fs.save cache_path (FsFile.cache examples), lns.length)
    | _ => none

/-- The `SummarizationDataset` state after `__init__`. -/
structure SummarizationDataset where
  source : List Encoding
  target : List Encoding
  max_source_length : Nat
  max_target_length : Nat
deriving DecidableEq

/-- The class-level constant `SummarizationDataset.pad_token_id = 1`. -/
def SummarizationDataset.pad_token_id : Nat := 1

/-- `SummarizationDataset.__init__`: truncate both lists to `n_obs` when given. -/
def SummarizationDataset.init (source target : List Encoding)
    (max_source_length max_target_length : Nat) (n_obs : Option Nat) : SummarizationDataset :=
  match n_obs with
  | none => ⟨source, target, max_source_length, max_target_length⟩
  | some n => ⟨source.take n, target.take n, max_source_length, max_target_length⟩

/-- `SummarizationDataset.__len__`: the length of the (truncated) source list. -/
def SummarizationDataset.len (d : SummarizationDataset) : Nat := d.source.length

/-- `SummarizationDataset.__getitem__`. -/
def SummarizationDataset.getItem (d : SummarizationDataset) (index : Nat) : Item :=
  ⟨(d.source.getD index ⟨[], []⟩).input_ids,
   (d.source.getD index ⟨[], []⟩).attention_mask,
   (d.target.getD index ⟨[], []⟩).input_ids⟩

/-- Length of the real (non-pad) content of one row: the row minus its
trailing run of pad tokens. -/
def contentLen (pad : Nat) (row : List Nat) : Nat :=
  (row.reverse.dropWhile (fun t => t == pad)).length

/-- Width of a batch after trimming: the longest real content present. -/
def batchWidth (pad : Nat) (rows : List (List Nat)) : Nat :=
  (rows.map (contentLen pad)).foldr max 0

/-- Modelled from the spec: `trim_batch` is imported from
`transformers.tokenization_utils`, which belongs to this repository but is not
among the provided sources.  The spec describes it as "removing trailing
shared padding columns from a batch down to the longest real (non-pad) content
length present". -/
def trim_batch (rows : List (List Nat)) (pad : Nat) : List (List Nat) :=
  rows.map (fun r => r.take (batchWidth pad rows))

/-- Modelled from the spec: the `trim_batch` overload that also receives the
attention mask and trims it with the same columns as the token-id rows. -/
def trim_batch_with_mask (rows masks : List (List Nat)) (pad : Nat) :
    List (List Nat) × List (List Nat) :=
  (rows.map (fun r => r.take (batchWidth pad rows)),
   masks.map (fun r => r.take (batchWidth pad rows)))

/-- `SummarizationDataset.collate_fn`: stack the fields of the items and trim
each stacked tensor with the class-level `pad_token_id`. -/
def SummarizationDataset.collate_fn (_d : SummarizationDataset) (batch : List Item) :
    CollatedBatch :=
  let input_ids := batch.map Item.input_ids
  let masks := batch.map Item.attention_mask
  let target_ids := batch.map Item.decoder_input_ids
  let y := trim_batch target_ids SummarizationDataset.pad_token_id
  let sm := trim_batch_with_mask input_ids masks SummarizationDataset.pad_token_id
  ⟨sm.1, sm.2, y⟩

/-- `os.path.join` for the two-component calls made by `from_raw_data`. -/
def joinPath (a b : String) : String := a ++ "/" ++ b

/-- Model of `SummarizationDataset.from_raw_data`. -/
def SummarizationDataset.from_raw_data (tokenizer : Tokenizer) (fs : FS)
    (data_dir type_path : String) (max_source_length max_target_length : Nat)
    (n_obs : Option Nat) (overwrite_cache : Bool) (tgt_suffix : String) :
    Option (SummarizationDataset × FS) :=
  let tok_name := if tokenizer.isBart then "" else "T5"
  let pfx := if tok_name = "T5" then T5_PREFIX else ""
  match encode_file tokenizer fs (joinPath data_dir (type_path ++ ".source"))
      max_source_length true overwrite_cache pfx tok_name with
  | none => none
  | some (source, fs1, _) =>
    let tgt_path :=
      if type_path = "train" then joinPath data_dir (type_path ++ ".target" ++ tgt_suffix)
      else joinPath data_dir (type_path ++ ".target")
    match encode_file tokenizer fs1 tgt_path max_target_length true overwrite_cache "" tok_name with
    | none => none
    | some (target, fs2, _) =>
      some (SummarizationDataset.init source target max_source_length max_target_length n_obs, fs2)

/-- Fuel-driven worker for `chunks`; the fuel is always at least the length of
the list, so the fuel-exhausted branch is never taken in practice. -/
def chunksGo {α : Type} (sz : Nat) : Nat → List α → List (List α)
  | _, [] => []
  | 0, l => [l]
  | fuel + 1, x :: xs => ((x :: xs).take sz) :: chunksGo sz fuel ((x :: xs).drop sz)

/-- `[l[i : i + sz] for i in range(0, len(l), sz)]`: partition a list into
contiguous chunks of size `sz`, the last chunk possibly shorter. -/
def chunks {α : Type} (sz : Nat) (l : List α) : List (List α) :=
  chunksGo sz l.length l

/-- `np.argmax`: index of the first maximal entry (`0` on the empty list). -/
def argmax : List Nat → Nat
  | [] => 0
  | x :: xs => if xs.all (fun y => Nat.ble y x) then 0 else argmax xs + 1

/-- Insert an index into a list already sorted by weakly descending key,
before the first strictly smaller key (so that the insertion sort built from
it is stable, matching Python's `sorted`). -/
def insortDesc (k : Nat → Nat) (i : Nat) : List Nat → List Nat
  | [] => [i]
  | j :: t => if k j ≤ k i then i :: j :: t else j :: insortDesc k i t

/-- Model of `sorted(s, key=k, reverse=True)`: stable sort by descending key. -/
def sortDesc (k : Nat → Nat) (l : List Nat) : List Nat := l.foldr (insortDesc k) []

/-- The simultaneous assignment `ck[0], ck[j] = ck[j], ck[0]`. -/
def swap0 (l : List (List Nat)) (j : Nat) : List (List Nat) :=
  (l.set 0 (l.getD j [])).set j (l.getD 0 [])

/-- The `SortishSampler` state: `data_source` (one token sequence per example,
whose lengths drive the sort) and the batch size `bs`. -/
structure SortishSampler where
  data_source : List (List Nat)
  bs : Nat

/-- `SortishSampler.key(i) = len(self.data_source[i])`. -/
def SortishSampler.key (s : SortishSampler) (i : Nat) : Nat := (s.data_source.getD i []).length

/-- `ck_idx = [idxs[i : i + 50 * bs] for i in range(0, len(idxs), 50 * bs)]`. -/
def SortishSampler.megachunks (s : SortishSampler) (idxs : List Nat) : List (List Nat) :=
  chunks (s.bs * 50) idxs

/-- The megachunks after the intra-chunk descending sort by `key`. -/
def SortishSampler.sortedChunks (s : SortishSampler) (idxs : List Nat) : List (List Nat) :=
  (s.megachunks idxs).map (sortDesc s.key)

/-- `sort_idx = np.concatenate([sorted(s, key=self.key, reverse=True) for s in ck_idx])`. -/
def SortishSampler.sortIdx (s : SortishSampler) (idxs : List Nat) : List Nat :=
  (s.sortedChunks idxs).flatten

/-- `ck_idx = [sort_idx[i : i + bs] for i in range(0, len(sort_idx), bs)]`. -/
def SortishSampler.batches (s : SortishSampler) (idxs : List Nat) : List (List Nat) :=
  chunks s.bs (s.sortIdx idxs)

/-- `max_ck = np.argmax([self.key(ck[0]) for ck in ck_idx])`. -/
def SortishSampler.maxCk (s : SortishSampler) (idxs : List Nat) : Nat :=
  argmax ((s.batches idxs).map (fun ck => s.key (ck.headD 0)))

/-- The candidate batches after `ck_idx[0], ck_idx[max_ck] = ck_idx[max_ck], ck_idx[0]`. -/
def SortishSampler.swappedBatches (s : SortishSampler) (idxs : List Nat) : List (List Nat) :=
  swap0 (s.batches idxs) (s.maxCk idxs)

/-- The order produced by one call to `SortishSampler.__iter__`.  `idxs` is
the draw of `np.random.permutation(len(self.data_source))` and `shuffled` the
draw of `np.random.permutation(ck_idx[1:])` (a permutation of the candidate
batches after the first, as whole units). -/
def SortishSampler.iterOut (s : SortishSampler) (idxs : List Nat)
    (shuffled : List (List Nat)) : List Nat :=
  ((s.swappedBatches idxs).headD []) ++ shuffled.flatten

theorem chunksGo_fuel {α : Type} (sz : Nat) (hsz : 0 < sz) :
    ∀ (f g : Nat) (l : List α), l.length ≤ f → l.length ≤ g →
      chunksGo sz f l = chunksGo sz g l := by
  intro f
  induction f with
  | zero =>
    intro g l hf _
    have : l = [] := by
      cases l with
      | nil => rfl
      | cons x xs => simp at hf
    subst this
    cases g <;> rfl
  | succ f ih =>
    intro g l hf hg
    cases l with
    | nil => cases g <;> rfl
    | cons x xs =>
      cases g with
      | zero => simp at hg
      | succ g =>
        simp only [chunksGo]
        congr 1
        apply ih
        · simp only [List.length_drop, List.length_cons] at *
          omega
        · simp only [List.length_drop, List.length_cons] at *
          omega

theorem chunks_nil {α : Type} (sz : Nat) : chunks sz ([] : List α) = [] := rfl

theorem chunks_cons {α : Type} {sz : Nat} (hsz : 0 < sz) {l : List α} (hl : l ≠ []) :
    chunks sz l = l.take sz :: chunks sz (l.drop sz) := by
  cases l with
  | nil => exact absurd rfl hl
  | cons x xs =>
    show chunksGo sz (xs.length + 1) (x :: xs) = _
    simp only [chunksGo]
    congr 1
    apply chunksGo_fuel sz hsz
    · simp only [List.length_drop, List.length_cons]
      omega
    · exact le_rfl

theorem chunks_induction {α : Type} (sz : Nat) (hsz : 0 < sz) {P : List α → Prop}
    (h0 : P []) (h1 : ∀ l : List α, l ≠ [] → P (l.drop sz) → P l) : ∀ l, P l := by
  have H : ∀ n : Nat, ∀ l : List α, l.length ≤ n → P l := by
    intro n
    induction n with
    | zero =>
      intro l hl
      have : l = [] := by cases l with
        | nil => rfl
        | cons x xs => simp at hl
      exact this ▸ h0
    | succ n ih =>
      intro l hl
      by_cases hnil : l = []
      · exact hnil ▸ h0
      · refine h1 l hnil (ih _ ?_)
        have hpos : 0 < l.length := List.length_pos.mpr hnil
        simp only [List.length_drop]
        omega
  intro l
  exact H l.length l le_rfl

theorem chunks_flatten {α : Type} {sz : Nat} (hsz : 0 < sz) (l : List α) :
    (chunks sz l).flatten = l := by
  induction l using chunks_induction sz hsz with
  | h0 => rfl
  | h1 l hne ih =>
    rw [chunks_cons hsz hne]
    simp only [List.flatten_cons, ih, List.take_append_drop]

theorem chunks_eq_nil_iff {α : Type} {sz : Nat} (hsz : 0 < sz) (l : List α) :
    chunks sz l = [] ↔ l = [] := by
  constructor
  · intro h
    cases hl : l with
    | nil => rfl
    | cons x xs =>
      rw [hl] at h
      rw [chunks_cons hsz (by simp)] at h
      simp at h
  · intro h
    simp [h, chunks_nil]

theorem mem_chunks {α : Type} {sz : Nat} (hsz : 0 < sz) {l : List α} :
    ∀ c ∈ chunks sz l, c ≠ [] ∧ c.length ≤ sz := by
  induction l using chunks_induction sz hsz with
  | h0 => intro c hc; simp [chunks_nil] at hc
  | h1 l hne ih =>
    intro c hc
    rw [chunks_cons hsz hne] at hc
    rcases List.mem_cons.mp hc with hc | hc
    · subst hc
      constructor
      · have hpos : 0 < l.length := List.length_pos.mpr hne
        intro h
        have := congrArg List.length h
        simp only [List.length_take, List.length_nil] at this
        omega
      · simp [List.length_take]
    · exact ih c hc

theorem mem_of_mem_chunks {α : Type} {sz : Nat} (hsz : 0 < sz) {l : List α}
    {c : List α} (hc : c ∈ chunks sz l) {x : α} (hx : x ∈ c) : x ∈ l := by
  rw [← chunks_flatten hsz l]
  exact List.mem_flatten.mpr ⟨c, hc, hx⟩

theorem chunks_dropLast_length {α : Type} {sz : Nat} (hsz : 0 < sz) (l : List α) :
    ∀ c ∈ (chunks sz l).dropLast, c.length = sz := by
  induction l using chunks_induction sz hsz with
  | h0 => intro c hc; simp [chunks_nil] at hc
  | h1 l hne ih =>
    intro c hc
    rw [chunks_cons hsz hne] at hc
    by_cases hrest : chunks sz (l.drop sz) = []
    · rw [hrest] at hc
      simp at hc
    · rcases (List.exists_cons_of_ne_nil hrest) with ⟨r, rs, hr⟩
      rw [hr] at hc
      rw [List.dropLast_cons₂] at hc
      rcases List.mem_cons.mp hc with hc | hc
      · subst hc
        have hlen : sz < l.length := by
          by_contra hle
          push_neg at hle
          have : l.drop sz = [] := List.drop_eq_nil_of_le hle
          rw [this, chunks_nil] at hr
          exact absurd rfl (hr ▸ List.cons_ne_nil r rs)
        simp only [List.length_take]
        omega
      · exact ih c (hr ▸ hc)

theorem chunks_append {α : Type} {sz : Nat} (hsz : 0 < sz) (l₁ l₂ : List α)
    (hdvd : sz ∣ l₁.length) :
    chunks sz (l₁ ++ l₂) = chunks sz l₁ ++ chunks sz l₂ := by
  induction l₁ using chunks_induction sz hsz with
  | h0 => simp [chunks_nil]
  | h1 l₁ hne ih =>
    have hpos : 0 < l₁.length := List.length_pos.mpr hne
    have hge : sz ≤ l₁.length := Nat.le_of_dvd hpos hdvd
    have hne2 : l₁ ++ l₂ ≠ [] := by
      intro h
      exact hne (List.append_eq_nil.mp h).1
    rw [chunks_cons hsz hne2, chunks_cons hsz hne]
    rw [List.take_append_eq_append_take, List.drop_append_eq_append_drop]
    have h1 : l₁.take sz = l₁.take sz ++ l₂.take (sz - l₁.length) := by
      rw [Nat.sub_eq_zero_of_le hge]
      simp
    rw [Nat.sub_eq_zero_of_le hge]
    simp only [List.take_zero, List.append_nil, List.drop_zero, List.cons_append]
    congr 1
    have hdvd2 : sz ∣ (l₁.drop sz).length := by
      simp only [List.length_drop]
      exact Nat.dvd_sub' hdvd dvd_rfl
    exact ih hdvd2

theorem chunks_flatten_eq {α : Type} {sz : Nat} (hsz : 0 < sz) (ms : List (List α))
    (hdvd : ∀ c ∈ ms.dropLast, sz ∣ c.length) :
    chunks sz ms.flatten = (ms.map (chunks sz)).flatten := by
  induction ms with
  | nil => simp [chunks_nil]
  | cons m ms ih =>
    cases ms with
    | nil => simp
    | cons m2 ms2 =>
      have hm : sz ∣ m.length := by
        apply hdvd
        rw [List.dropLast_cons₂]
        exact List.mem_cons_self m _
      have hrest : ∀ c ∈ (m2 :: ms2).dropLast, sz ∣ c.length := by
        intro c hc
        apply hdvd
        rw [List.dropLast_cons₂]
        exact List.mem_cons_of_mem m hc
      calc chunks sz ((m :: m2 :: ms2).flatten)
          = chunks sz (m ++ (m2 :: ms2).flatten) := by rw [List.flatten_cons]
        _ = chunks sz m ++ chunks sz ((m2 :: ms2).flatten) := chunks_append hsz _ _ hm
        _ = chunks sz m ++ (List.map (chunks sz) (m2 :: ms2)).flatten := by rw [ih hrest]
        _ = ((m :: m2 :: ms2).map (chunks sz)).flatten := by
              simp only [List.map_cons, List.flatten_cons]

theorem argmax_lt {l : List Nat} (hl : l ≠ []) : argmax l < l.length := by
  induction l with
  | nil => exact absurd rfl hl
  | cons x xs ih =>
    simp only [argmax]
    split
    · simp
    · rename_i hall
      have hxs : xs ≠ [] := by
        intro h
        subst h
        simp at hall
      have := ih hxs
      simp only [List.length_cons]
      omega

theorem argmax_getD_spec (l : List Nat) : ∀ y ∈ l, y ≤ l.getD (argmax l) 0 := by
  induction l with
  | nil => intro y hy; simp at hy
  | cons x xs ih =>
    intro y hy
    simp only [argmax]
    split
    · rename_i hall
      rw [List.all_eq_true] at hall
      simp only [List.getD_cons_zero]
      rcases List.mem_cons.mp hy with hy | hy
      · exact hy.le
      · have := hall y hy
        exact Nat.le_of_ble_eq_true this
    · rename_i hall
      simp only [List.getD_cons_succ]
      rcases List.mem_cons.mp hy with hy | hy
      · subst hy
        rw [List.all_eq_true] at hall
        push_neg at hall
        rcases hall with ⟨z, hz, hzb⟩
        have hlt : ¬ z ≤ y := by
          intro hle
          exact hzb (Nat.ble_eq_true_of_le hle)
        push_neg at hlt
        exact le_trans hlt.le (ih z hz)
      · exact ih y hy

theorem getD_set_cons_perm {α : Type} (d : α) :
    ∀ (t : List α) (k : Nat), k < t.length → ∀ x : α,
      (t.getD k d :: t.set k x).Perm (x :: t) := by
  intro t
  induction t with
  | nil => intro k hk; simp at hk
  | cons a t ih =>
    intro k hk x
    cases k with
    | zero =>
      simp only [List.getD_cons_zero, List.set_cons_zero]
      exact List.Perm.swap x a t
    | succ k =>
      simp only [List.getD_cons_succ, List.set_cons_succ]
      have h1 : (t.getD k d :: a :: t.set k x).Perm (a :: t.getD k d :: t.set k x) :=
        List.Perm.swap a (t.getD k d) _
      refine h1.trans ?_
      have h2 := (ih k (by simpa using hk) x).cons a
      refine h2.trans ?_
      exact List.Perm.swap x a t

theorem swap0_perm {l : List (List Nat)} {j : Nat} (hj : j < l.length) :
    (swap0 l j).Perm l := by
  cases l with
  | nil => simp at hj
  | cons b t =>
    cases j with
    | zero =>
      simp [swap0]
    | succ k =>
      unfold swap0
      simp only [List.getD_cons_succ, List.getD_cons_zero, List.set_cons_zero,
        List.set_cons_succ]
      exact getD_set_cons_perm [] t k (by simpa using hj) b

theorem swap0_headD {l : List (List Nat)} {j : Nat} (hj : j < l.length) :
    (swap0 l j).headD [] = l.getD j [] := by
  cases l with
  | nil => simp at hj
  | cons b t =>
    cases j with
    | zero =>
      simp [swap0]
    | succ k =>
      unfold swap0
      simp only [List.getD_cons_succ, List.getD_cons_zero, List.set_cons_zero,
        List.set_cons_succ, List.headD_cons]

theorem headD_append_tail_flatten (l : List (List Nat)) :
    l.headD [] ++ l.tail.flatten = l.flatten := by
  cases l with
  | nil => rfl
  | cons h t => simp

theorem perm_flatten_of_perm {α : Type} {l₁ l₂ : List (List α)} (h : l₁.Perm l₂) :
    l₁.flatten.Perm l₂.flatten := by
  induction h with
  | nil => exact List.Perm.refl _
  | cons x _ ih => simpa using ih.append_left x
  | swap x y l =>
    simp only [List.flatten_cons]
    rw [← List.append_assoc, ← List.append_assoc]
    exact (List.perm_append_comm).append_right l.flatten
  | trans _ _ ih1 ih2 => exact ih1.trans ih2

theorem insortDesc_perm (k : Nat → Nat) (i : Nat) (l : List Nat) :
    (insortDesc k i l).Perm (i :: l) := by
  induction l with
  | nil => exact List.Perm.refl _
  | cons j t ih =>
    simp only [insortDesc]
    split
    · exact List.Perm.refl _
    · exact (ih.cons j).trans (List.Perm.swap i j t)

theorem insortDesc_pairwise (k : Nat → Nat) (i : Nat) (l : List Nat)
    (hl : l.Pairwise (fun a b => k b ≤ k a)) :
    (insortDesc k i l).Pairwise (fun a b => k b ≤ k a) := by
  induction l with
  | nil => simp [insortDesc]
  | cons j t ih =>
    simp only [insortDesc]
    split
    · rename_i hki
      refine List.Pairwise.cons ?_ hl
      intro b hb
      rcases List.mem_cons.mp hb with hb | hb
      · exact hb ▸ hki
      · exact le_trans (List.rel_of_pairwise_cons hl hb) hki
    · rename_i hki
      push_neg at hki
      rcases List.pairwise_cons.mp hl with ⟨hjt, ht⟩
      refine List.Pairwise.cons ?_ (ih ht)
      intro b hb
      have hb2 : b ∈ i :: t := (insortDesc_perm k i t).mem_iff.mp hb
      rcases List.mem_cons.mp hb2 with hb2 | hb2
      · exact hb2 ▸ hki.le
      · exact hjt b hb2

theorem sortDesc_perm (k : Nat → Nat) (l : List Nat) : (sortDesc k l).Perm l := by
  induction l with
  | nil => exact List.Perm.refl _
  | cons x xs ih =>
    show (insortDesc k x (sortDesc k xs)).Perm (x :: xs)
    exact (insortDesc_perm k x (sortDesc k xs)).trans (ih.cons x)

theorem sortDesc_pairwise (k : Nat → Nat) (l : List Nat) :
    (sortDesc k l).Pairwise (fun a b => k b ≤ k a) := by
  induction l with
  | nil => simp [sortDesc]
  | cons x xs ih => exact insortDesc_pairwise k x (sortDesc k xs) ih

theorem sortDesc_length (k : Nat → Nat) (l : List Nat) :
    (sortDesc k l).length = l.length := (sortDesc_perm k l).length_eq

theorem key_le_headD_of_pairwise {k : Nat → Nat} {m : List Nat}
    (hm : m.Pairwise (fun a b => k b ≤ k a)) {i : Nat} (hi : i ∈ m) :
    k i ≤ k (m.headD 0) := by
  cases m with
  | nil => simp at hi
  | cons h t
  =>
    simp only [List.headD_cons]
    rcases List.mem_cons.mp hi with hi | hi
    · exact hi ▸ le_rfl
    · exact List.rel_of_pairwise_cons hm hi

theorem dropLast_map_eq {α β : Type} (f : α → β) (l : List α) :
    (l.map f).dropLast = l.dropLast.map f := by
  induction l with
  | nil => rfl
  | cons x xs ih =>
    cases xs with
    | nil => rfl
    | cons y ys =>
      simp only [List.map_cons, List.dropLast_cons₂] at *
      rw [ih]

theorem headD_append_left {α : Type} {l : List α} (hl : l ≠ []) (t : List α) (d : α) :
    (l ++ t).headD d = l.headD d := by
  cases l with
  | nil => exact absurd rfl hl
  | cons x xs => rfl

theorem headD_take {α : Type} {n : Nat} (hn : 0 < n) (l : List α) (d : α) :
    (l.take n).headD d = l.headD d := by
  cases l with
  | nil => simp
  | cons x xs =>
    cases n with
    | zero => omega
    | succ n => rfl

theorem headD_mem {α : Type} {l : List α} (hl : l ≠ []) (d : α) : l.headD d ∈ l := by
  cases l with
  | nil => exact absurd rfl hl
  | cons x xs => simp

theorem getD_map_lt {α β : Type} (f : α → β) {l : List α} {j : Nat} (hj : j < l.length)
    (d : β) (e : α) : (l.map f).getD j d = f (l.getD j e) := by
  rw [List.getD_eq_getElem _ _ (by simpa using hj), List.getD_eq_getElem _ _ hj,
    List.getElem_map]

theorem getD_mem_of_lt {α : Type} {l : List α} {j : Nat} (hj : j < l.length) (d : α) :
    l.getD j d ∈ l := by
  rw [List.getD_eq_getElem _ _ hj]
  exact List.getElem_mem hj

theorem flatten_map_sortDesc (k : Nat → Nat) (ms : List (List Nat)) :
    ((ms.map (sortDesc k)).flatten).Perm ms.flatten := by
  induction ms with
  | nil => exact List.Perm.refl _
  | cons m ms ih =>
    simp only [List.map_cons, List.flatten_cons]
    exact (sortDesc_perm k m).append ih

namespace SortishSampler

theorem sortIdx_perm (s : SortishSampler) (idxs : List Nat) (hbs : 1 ≤ s.bs) :
    (s.sortIdx idxs).Perm idxs := by
  have h50 : 0 < s.bs * 50 := by omega
  unfold SortishSampler.sortIdx SortishSampler.sortedChunks SortishSampler.megachunks
  exact (flatten_map_sortDesc _ _).trans (Eq.mpr (by rw [chunks_flatten h50 idxs]) (List.Perm.refl idxs))

theorem sortIdx_ne_nil (s : SortishSampler) {idxs : List Nat} (hbs : 1 ≤ s.bs)
    (hne : idxs ≠ []) : s.sortIdx idxs ≠ [] := by
  intro h
  have hlen := (s.sortIdx_perm idxs hbs).length_eq
  rw [h] at hlen
  exact hne (List.eq_nil_of_length_eq_zero hlen.symm)

theorem batches_ne_nil (s : SortishSampler) {idxs : List Nat} (hbs : 1 ≤ s.bs)
    (hne : idxs ≠ []) : s.batches idxs ≠ [] := by
  intro h
  exact s.sortIdx_ne_nil hbs hne ((chunks_eq_nil_iff hbs (s.sortIdx idxs)).mp h)

theorem maxCk_lt (s : SortishSampler) {idxs : List Nat} (hbs : 1 ≤ s.bs)
    (hne : idxs ≠ []) : s.maxCk idxs < (s.batches idxs).length := by
  have h1 : (s.batches idxs).map (fun ck => s.key (ck.headD 0)) ≠ [] := by
    intro h
    exact s.batches_ne_nil hbs hne (List.map_eq_nil_iff.mp h)
  have := argmax_lt h1
  simpa [SortishSampler.maxCk] using this

theorem batches_flatten (s : SortishSampler) (idxs : List Nat) (hbs : 1 ≤ s.bs) :
    (s.batches idxs).flatten = s.sortIdx idxs := chunks_flatten hbs _

theorem sortedChunks_dropLast_dvd (s : SortishSampler) (idxs : List Nat) (hbs : 1 ≤ s.bs) :
    ∀ c ∈ (s.sortedChunks idxs).dropLast, s.bs ∣ c.length := by
  intro c hc
  have h50 : 0 < s.bs * 50 := by omega
  unfold SortishSampler.sortedChunks at hc
  rw [dropLast_map_eq] at hc
  rcases List.mem_map.mp hc with ⟨c0, hc0, hc0eq⟩
  have hlen : c0.length = s.bs * 50 := chunks_dropLast_length h50 idxs c0 hc0
  rw [← hc0eq, sortDesc_length, hlen]
  exact Dvd.intro 50 rfl

theorem sortedChunks_ne_nil_mem (s : SortishSampler) (idxs : List Nat) (hbs : 1 ≤ s.bs) :
    ∀ m ∈ s.sortedChunks idxs, m ≠ [] := by
  intro m hm
  have h50 : 0 < s.bs * 50 := by omega
  rcases List.mem_map.mp hm with ⟨c0, hc0, hc0eq⟩
  have := (mem_chunks h50 c0 hc0).1
  intro h
  apply this
  have hlen := (sortDesc_perm s.key c0).length_eq
  rw [hc0eq] at hlen
  rw [h] at hlen
  exact List.eq_nil_of_length_eq_zero hlen.symm

theorem key_le_maxCk_head (s : SortishSampler) (idxs : List Nat) (hbs : 1 ≤ s.bs)
    (hne : idxs ≠ []) :
    ∀ i ∈ s.sortIdx idxs,
      s.key i ≤ s.key (((s.batches idxs).getD (s.maxCk idxs) []).headD 0) := by
  intro i hi
  rcases List.mem_flatten.mp hi with ⟨m, hm, him⟩
  have hsorted : m.Pairwise (fun a b => s.key b ≤ s.key a) := by
    rcases List.mem_map.mp hm with ⟨c0, _, hc0eq⟩
    rw [← hc0eq]
    exact sortDesc_pairwise s.key c0
  have h1 : s.key i ≤ s.key (m.headD 0) := key_le_headD_of_pairwise hsorted him
  have hmne : m ≠ [] := s.sortedChunks_ne_nil_mem idxs hbs m hm
  have hdecomp : s.batches idxs = ((s.sortedChunks idxs).map (chunks s.bs)).flatten := by
    unfold SortishSampler.batches SortishSampler.sortIdx
    exact chunks_flatten_eq hbs _ (s.sortedChunks_dropLast_dvd idxs hbs)
  have htake : m.take s.bs ∈ s.batches idxs := by
    rw [hdecomp]
    refine List.mem_flatten.mpr ⟨chunks s.bs m, List.mem_map_of_mem _ hm, ?_⟩
    rw [chunks_cons hbs hmne]
    exact List.mem_cons_self _ _
  have hheads : (m.take s.bs).headD 0 = m.headD 0 := headD_take hbs m 0
  have hspec := argmax_getD_spec ((s.batches idxs).map (fun ck => s.key (ck.headD 0)))
  have hmem : s.key ((m.take s.bs).headD 0) ∈
      (s.batches idxs).map (fun ck => s.key (ck.headD 0)) :=
    List.mem_map_of_mem _ htake
  have h2 := hspec _ hmem
  have hmk : s.maxCk idxs < (s.batches idxs).length := s.maxCk_lt hbs hne
  rw [show argmax ((s.batches idxs).map fun ck => s.key (ck.headD 0)) = s.maxCk idxs from rfl,
    getD_map_lt _ hmk 0 []] at h2
  rw [hheads] at h2
  exact h1.trans h2

end SortishSampler

/-- Claim C1: for every dataset of `N` examples and every `batch_size ≥ 1`
with `N ≥ 1`, the index sequence produced by one call to
`SortishSampler.__iter__` — for every draw of the initial permutation and of
the batch shuffle — is a permutation of `range(N)`: every index `0..N-1`
occurs exactly once, with no duplicates and no omissions. -/
theorem sortish_iter_is_permutation (s : SortishSampler) (idxs : List Nat)
    (shuffled : List (List Nat)) (hbs : 1 ≤ s.bs) (hN : 1 ≤ s.data_source.length)
    (hidx : idxs.Perm (List.range s.data_source.length))
    (hsh : shuffled.Perm (s.swappedBatches idxs).tail) :
    (s.iterOut idxs shuffled).Perm (List.range s.data_source.length) := by
  have hne : idxs ≠ [] := by
    intro h
    have := hidx.length_eq
    rw [h, List.length_range] at this
    simp at this
    omega
  have hmk : s.maxCk idxs < (s.batches idxs).length := s.maxCk_lt hbs hne
  have h1 : (s.iterOut idxs shuffled).Perm ((s.swappedBatches idxs).flatten) := by
    unfold SortishSampler.iterOut
    rw [← headD_append_tail_flatten (s.swappedBatches idxs)]
    exact (perm_flatten_of_perm hsh).append_left _
  have h2 : ((s.swappedBatches idxs).flatten).Perm (s.sortIdx idxs) := by
    have := perm_flatten_of_perm (swap0_perm hmk)
    rw [s.batches_flatten idxs hbs] at this
    exact this
  exact ((h1.trans h2).trans (s.sortIdx_perm idxs hbs)).trans hidx

/-- Claim C3: for every dataset and every `batch_size ≥ 1`,
`SortishSampler.__iter__` partitions the initial permutation into contiguous
chunks of exactly `50 * batch_size` indices (the last chunk may be shorter
but is nonempty), and within each chunk sorts the indices in descending order
of the example's source sequence length, which is the sort key. -/
theorem sortish_megachunk_partition_and_sort (s : SortishSampler) (idxs : List Nat)
    (hbs : 1 ≤ s.bs) :
    (s.megachunks idxs).flatten = idxs
    ∧ (∀ c ∈ (s.megachunks idxs).dropLast, c.length = s.bs * 50)
    ∧ (∀ c ∈ s.megachunks idxs, c ≠ [] ∧ c.length ≤ s.bs * 50)
    ∧ List.Forall₂ (fun c m => m.Perm c) (s.megachunks idxs) (s.sortedChunks idxs)
    ∧ (∀ m ∈ s.sortedChunks idxs, m.Pairwise (fun i j => s.key j ≤ s.key i)) := by
  have h50 : 0 < s.bs * 50 := by omega
  refine ⟨chunks_flatten h50 idxs, chunks_dropLast_length h50 idxs, mem_chunks h50, ?_, ?_⟩
  · unfold SortishSampler.sortedChunks
    rw [List.forall₂_map_right_iff]
    rw [List.forall₂_same]
    intro c _
    exact sortDesc_perm s.key c
  · intro m hm
    rcases List.mem_map.mp hm with ⟨c0, _, hc0eq⟩
    rw [← hc0eq]
    exact sortDesc_pairwise s.key c0

/-- Claim C2: for every dataset of `N ≥ 1` examples and every
`batch_size ≥ 1`, in the order produced by `SortishSampler.__iter__` the first
element has a length key greater than or equal to the key of every element of
the produced order; in particular no candidate batch of size `batch_size`
taken from the produced order has a first element with a strictly larger
first-sort-key value than the first batch's first element. -/
theorem sortish_first_batch_key_is_max (s : SortishSampler) (idxs : List Nat)
    (shuffled : List (List Nat)) (hbs : 1 ≤ s.bs) (hN : 1 ≤ s.data_source.length)
    (hidx : idxs.Perm (List.range s.data_source.length))
    (hsh : shuffled.Perm (s.swappedBatches idxs).tail) :
    (∀ i ∈ s.iterOut idxs shuffled, s.key i ≤ s.key ((s.iterOut idxs shuffled).headD 0))
    ∧ (∀ c ∈ chunks s.bs (s.iterOut idxs shuffled),
        s.key (c.headD 0) ≤ s.key ((s.iterOut idxs shuffled).headD 0)) := by
  have hne : idxs ≠ [] := by
    intro h
    have hq := hidx.length_eq
    rw [h, List.length_range] at hq
    simp at hq
    omega
  have hmk : s.maxCk idxs < (s.batches idxs).length := s.maxCk_lt hbs hne
  have hb0mem : (s.batches idxs).getD (s.maxCk idxs) [] ∈ s.batches idxs :=
    getD_mem_of_lt hmk []
  have hb0ne : (s.batches idxs).getD (s.maxCk idxs) [] ≠ [] :=
    (mem_chunks hbs _ hb0mem).1
  have hhead : (s.swappedBatches idxs).headD [] = (s.batches idxs).getD (s.maxCk idxs) [] :=
    swap0_headD hmk
  have houthead : (s.iterOut idxs shuffled).headD 0
      = ((s.batches idxs).getD (s.maxCk idxs) []).headD 0 := by
    unfold SortishSampler.iterOut
    rw [hhead, headD_append_left hb0ne]
  have hbound := s.key_le_maxCk_head idxs hbs hne
  have helem : ∀ i ∈ s.iterOut idxs shuffled,
      s.key i ≤ s.key ((s.iterOut idxs shuffled).headD 0) := by
    intro i hi
    rw [houthead]
    apply hbound
    unfold SortishSampler.iterOut at hi
    rw [← s.batches_flatten idxs hbs]
    rcases List.mem_append.mp hi with hi | hi
    · rw [hhead] at hi
      exact List.mem_flatten.mpr ⟨_, hb0mem, hi⟩
    · have hi2 : i ∈ (s.swappedBatches idxs).tail.flatten :=
        (perm_flatten_of_perm hsh).mem_iff.mp hi
      rcases List.mem_flatten.mp hi2 with ⟨c, hc, hic⟩
      have hc2 : c ∈ s.swappedBatches idxs := List.mem_of_mem_tail hc
      have hc3 : c ∈ s.batches idxs := (swap0_perm hmk).mem_iff.mp hc2
      exact List.mem_flatten.mpr ⟨c, hc3, hic⟩
  refine ⟨helem, ?_⟩
  intro c hc
  have hcne : c ≠ [] := (mem_chunks hbs c hc).1
  exact helem _ (mem_of_mem_chunks hbs hc (headD_mem hcne 0))

/-- Claim C7: for every dataset with `1 ≤ N ≤ batch_size` (exactly one
candidate batch), `SortishSampler.__iter__` succeeds: the candidate-batch list
is the single sorted batch, the shuffle of the remaining batches is forced to
be the empty shuffle, and the produced order is exactly that single batch. -/
theorem sortish_single_batch (s : SortishSampler) (idxs : List Nat)
    (shuffled : List (List Nat)) (hbs : 1 ≤ s.bs) (hN : 1 ≤ s.data_source.length)
    (hNbs : s.data_source.length ≤ s.bs)
    (hidx : idxs.Perm (List.range s.data_source.length))
    (hsh : shuffled.Perm (s.swappedBatches idxs).tail) :
    s.swappedBatches idxs = [sortDesc s.key idxs] ∧ shuffled = []
    ∧ s.iterOut idxs shuffled = sortDesc s.key idxs := by
  have hlen : idxs.length = s.data_source.length := by
    have hq := hidx.length_eq
    rwa [List.length_range] at hq
  have hne : idxs ≠ [] := by
    intro h
    rw [h] at hlen
    simp at hlen
    omega
  have hle : idxs.length ≤ s.bs := by omega
  have hle50 : idxs.length ≤ s.bs * 50 := by omega
  have hmega : s.megachunks idxs = [idxs] := by
    unfold SortishSampler.megachunks
    rw [chunks_cons (by omega) hne, List.take_of_length_le hle50,
      List.drop_eq_nil_of_le hle50, chunks_nil]
  have hsortIdx : s.sortIdx idxs = sortDesc s.key idxs := by
    unfold SortishSampler.sortIdx SortishSampler.sortedChunks
    rw [hmega]
    simp
  have hsortlen : (sortDesc s.key idxs).length ≤ s.bs := by
    rw [sortDesc_length]
    exact hle
  have hsne : sortDesc s.key idxs ≠ [] := by
    intro h
    have hq := congrArg List.length h
    rw [sortDesc_length] at hq
    exact hne (List.eq_nil_of_length_eq_zero hq)
  have hbatches : s.batches idxs = [sortDesc s.key idxs] := by
    unfold SortishSampler.batches
    rw [hsortIdx, chunks_cons hbs hsne, List.take_of_length_le hsortlen,
      List.drop_eq_nil_of_le hsortlen, chunks_nil]
  have hmaxCk : s.maxCk idxs = 0 := by
    unfold SortishSampler.maxCk
    rw [hbatches]
    simp [argmax]
  have hswap : s.swappedBatches idxs = [sortDesc s.key idxs] := by
    unfold SortishSampler.swappedBatches
    rw [hbatches, hmaxCk]
    simp [swap0]
  have hshuf : shuffled = [] := by
    rw [hswap] at hsh
    exact List.perm_nil.mp (by simpa using hsh)
  refine ⟨hswap, hshuf, ?_⟩
  unfold SortishSampler.iterOut
  rw [hswap, hshuf]
  simp

theorem sortish_iter_is_permutation_witness :
    (SortishSampler.iterOut ⟨[[0], [0, 0], [0, 0, 0]], 1⟩ [2, 0, 1] [[0], [1]]).Perm
      (List.range 3) :=
  sortish_iter_is_permutation ⟨[[0], [0, 0], [0, 0, 0]], 1⟩ [2, 0, 1] [[0], [1]]
    (by decide) (by decide) (by decide) (by decide)

theorem sortish_first_batch_key_is_max_witness :
    SortishSampler.key ⟨[[0], [0, 0], [0, 0, 0]], 1⟩ 0 ≤
      SortishSampler.key ⟨[[0], [0, 0], [0, 0, 0]], 1⟩
        ((SortishSampler.iterOut ⟨[[0], [0, 0], [0, 0, 0]], 1⟩ [2, 0, 1] [[0], [1]]).headD 0) :=
  (sortish_first_batch_key_is_max ⟨[[0], [0, 0], [0, 0, 0]], 1⟩ [2, 0, 1] [[0], [1]]
    (by decide) (by decide) (by decide) (by decide)).1 0 (by decide)

theorem sortish_megachunk_partition_and_sort_witness :
    (SortishSampler.megachunks ⟨[[0], [0, 0], [0, 0, 0]], 1⟩ [2, 0, 1]).flatten = [2, 0, 1] :=
  (sortish_megachunk_partition_and_sort ⟨[[0], [0, 0], [0, 0, 0]], 1⟩ [2, 0, 1] (by decide)).1

theorem sortish_single_batch_witness :
    SortishSampler.iterOut ⟨[[0], [0, 0], [0, 0, 0]], 5⟩ [2, 0, 1] [] =
      sortDesc (SortishSampler.key ⟨[[0], [0, 0], [0, 0, 0]], 5⟩) [2, 0, 1] :=
  (sortish_single_batch ⟨[[0], [0, 0], [0, 0, 0]], 5⟩ [2, 0, 1] []
    (by decide) (by decide) (by decide) (by decide) (by decide)).2.2

theorem le_foldr_max (l : List Nat) : ∀ x ∈ l, x ≤ l.foldr max 0 := by
  induction l with
  | nil => intro x hx; simp at hx
  | cons a t ih =>
    intro x hx
    simp only [List.foldr_cons]
    rcases List.mem_cons.mp hx with hx | hx
    · subst hx
      exact le_max_left x (t.foldr max 0)
    · exact le_trans (ih x hx) (le_max_right a (t.foldr max 0))

theorem foldr_max_le (l : List Nat) (w : Nat) (h : ∀ x ∈ l, x ≤ w) : l.foldr max 0 ≤ w := by
  induction l with
  | nil => simp
  | cons a t ih =>
    simp only [List.foldr_cons, max_le_iff]
    exact ⟨h a (List.mem_cons_self a t), ih fun x hx => h x (List.mem_cons_of_mem a hx)⟩

/-- Claim C4 counterexample: with `n_obs = None` and source/target lists of
unequal lengths, `__len__` returns `len(source)` (here `1`), not
`min(len(source), len(target))` (here `0`). -/
theorem dataset_len_min_counterexample :
    ¬ ((SummarizationDataset.init [⟨[], []⟩] [] 1024 56 none).len
        = min ([⟨[], []⟩] : List Encoding).length ([] : List Encoding).length) := by
  decide

/-- Claim C4 (amended): `len` always equals `len(source)` after truncation;
this equals `min(len(source), len(target))` whenever source and target have
equal length (the data-model invariant), and equals `n_obs` whenever `n_obs`
is provided and smaller than the full set. -/
theorem dataset_len_amended (source target : List Encoding) (msl mtl : Nat) :
    ((SummarizationDataset.init source target msl mtl none).len = source.length)
    ∧ (source.length = target.length →
        (SummarizationDataset.init source target msl mtl none).len
          = min source.length target.length)
    ∧ (∀ n : Nat, n < min source.length target.length →
        (SummarizationDataset.init source target msl mtl (some n)).len = n) := by
  refine ⟨rfl, ?_, ?_⟩
  · intro h
    simp [SummarizationDataset.init, SummarizationDataset.len, h]
  · intro n hn
    simp only [SummarizationDataset.init, SummarizationDataset.len, List.length_take]
    omega

theorem dataset_len_amended_witness :
    ((SummarizationDataset.init [⟨[], []⟩, ⟨[], []⟩] [⟨[], []⟩, ⟨[], []⟩] 1024 56 none).len
      = min 2 2)
    ∧ ((SummarizationDataset.init [⟨[], []⟩, ⟨[], []⟩] [⟨[], []⟩, ⟨[], []⟩] 1024 56
        (some 1)).len = 1) :=
  ⟨(dataset_len_amended [⟨[], []⟩, ⟨[], []⟩] [⟨[], []⟩, ⟨[], []⟩] 1024 56).2.1 rfl,
   (dataset_len_amended [⟨[], []⟩, ⟨[], []⟩] [⟨[], []⟩, ⟨[], []⟩] 1024 56).2.2 1 (by decide)⟩

/-- Claim C6: `collate_fn` stacks the items and trims every stacked sequence
down to the minimum width still containing all non-pad content shared across
the batch (the width is an upper bound of every row's content length, and is
the least such bound); in particular two examples of real token length 5 and
8 padded to max length 20 with pad id 1 collate to batch width 8, not 20. -/
theorem collate_fn_trims (d : SummarizationDataset) (batch : List Item) :
    ((d.collate_fn batch).input_ids
      = batch.map (fun x => x.input_ids.take (batchWidth 1 (batch.map Item.input_ids))))
    ∧ ((d.collate_fn batch).attention_mask
      = batch.map (fun x => x.attention_mask.take (batchWidth 1 (batch.map Item.input_ids))))
    ∧ ((d.collate_fn batch).decoder_input_ids
      = batch.map (fun x =>
          x.decoder_input_ids.take (batchWidth 1 (batch.map Item.decoder_input_ids))))
    ∧ (∀ x ∈ batch, contentLen 1 x.input_ids ≤ batchWidth 1 (batch.map Item.input_ids))
    ∧ (∀ w : Nat, (∀ x ∈ batch, contentLen 1 x.input_ids ≤ w)
        → batchWidth 1 (batch.map Item.input_ids) ≤ w)
    ∧ ((d.collate_fn
          [⟨[2, 2, 2, 2, 2] ++ List.replicate 15 1, List.replicate 20 1, [2]⟩,
           ⟨[3, 3, 3, 3, 3, 3, 3, 3] ++ List.replicate 12 1, List.replicate 20 1,
            [3]⟩]).input_ids.map List.length = [8, 8]) := by
  refine ⟨?_, ?_, ?_, ?_, ?_, by rfl⟩
  · simp [SummarizationDataset.collate_fn, trim_batch_with_mask,
      SummarizationDataset.pad_token_id, List.map_map, Function.comp]
  · simp [SummarizationDataset.collate_fn, trim_batch_with_mask,
      SummarizationDataset.pad_token_id, List.map_map, Function.comp]
  · simp [SummarizationDataset.collate_fn, trim_batch,
      SummarizationDataset.pad_token_id, List.map_map, Function.comp]
  · intro x hx
    unfold batchWidth
    exact le_foldr_max _ _ (List.mem_map_of_mem _ (List.mem_map_of_mem _ hx))
  · intro w hw
    unfold batchWidth
    apply foldr_max_le
    intro v hv
    rcases List.mem_map.mp hv with ⟨r, hr, hrv⟩
    rcases List.mem_map.mp hr with ⟨x, hx, hxr⟩
    rw [← hrv, ← hxr]
    exact hw x hx

theorem collate_fn_trims_witness :
    contentLen 1 (Item.input_ids ⟨[2, 1, 1], [1, 1, 1], [5]⟩) ≤
      batchWidth 1 (([⟨[2, 1, 1], [1, 1, 1], [5]⟩] : List Item).map Item.input_ids) :=
  (collate_fn_trims (SummarizationDataset.init [] [] 0 0 none)
      [⟨[2, 1, 1], [1, 1, 1], [5]⟩]).2.2.2.1
    ⟨[2, 1, 1], [1, 1, 1], [5]⟩ (by decide)

/-- Claim C10: `collate_fn` trims using the fixed class-level
`pad_token_id = 1` for every dataset instance — hence regardless of which
tokenizer produced the encodings — and its output depends only on the batch
contents and the constant `1`.  A batch whose true pad id is `0` is left
untrimmed by the constant-`1` trim even though trimming with `0` would
shorten it. -/
theorem collate_fn_pad_token_constant (d d2 : SummarizationDataset) (batch : List Item) :
    SummarizationDataset.pad_token_id = 1
    ∧ d.collate_fn batch = d2.collate_fn batch
    ∧ d.collate_fn batch =
        ⟨(trim_batch_with_mask (batch.map Item.input_ids) (batch.map Item.attention_mask) 1).1,
         (trim_batch_with_mask (batch.map Item.input_ids) (batch.map Item.attention_mask) 1).2,
         trim_batch (batch.map Item.decoder_input_ids) 1⟩
    ∧ ((d.collate_fn [⟨[3, 0, 0], [1, 1, 0], [4, 0, 0]⟩]).input_ids = [[3, 0, 0]])
    ∧ trim_batch [[3, 0, 0]] 0 ≠ [[3, 0, 0]] := by
  exact ⟨rfl, rfl, rfl, by rfl, by decide⟩

theorem FS.lookup_save_self (fs : FS) (p : String) (f : FsFile) :
    (fs.save p f).lookup p = some f := by
  simp [FS.save, FS.lookup]

theorem FS.lookup_save_ne (fs : FS) {p q : String} (h : p ≠ q) (f : FsFile) :
    (fs.save p f).lookup q = fs.lookup q := by
  simp [FS.save, FS.lookup, h]

/-- Claim C5: a successful `encode_file` call with `overwrite_cache=False`
leaves the produced example list at the derived cache path
`f"{data_path}_{tok_name}{max_length}.pkl"`, and an immediately repeated call
performs zero tokenizer invocations, changes nothing on disk, and returns
content identical to the first call's result. -/
theorem encode_file_cache_idempotent (tokenizer : Tokenizer) (fs : FS) (data_path : String)
    (max_length : Nat) (pad : Bool) (pfx tok_name : String) (ex : List Encoding) (fs1 : FS)
    (n : Nat)
    (h : encode_file tokenizer fs data_path max_length pad false pfx tok_name
      = some (ex, fs1, n)) :
    encode_file tokenizer fs1 data_path max_length pad false pfx tok_name = some (ex, fs1, 0)
    ∧ fs1.lookup (cachePath data_path tok_name max_length) = some (FsFile.cache ex) := by
  unfold encode_file at h
  by_cases hc : (fs.lookup (cachePath data_path tok_name max_length)).isSome
  · rw [if_pos ⟨rfl, hc⟩] at h
    cases hm : fs.lookup (cachePath data_path tok_name max_length) with
    | none => rw [hm] at hc; simp at hc
    | some f =>
      rw [hm] at h
      cases f with
      | text lines => simp at h
      | cache exs =>
        simp only [Option.some.injEq, Prod.mk.injEq] at h
        obtain ⟨hex, hfs, hn⟩ := h
        subst hex
        subst hfs
        refine ⟨?_, hm⟩
        unfold encode_file
        rw [if_pos ⟨rfl, by rw [hm]; rfl⟩, hm]
  · rw [if_neg (by intro hq; exact hc hq.2)] at h
    cases hm : fs.lookup data_path with
    | none => rw [hm] at h; simp at h
    | some f =>
      rw [hm] at h
      cases f with
      | cache exs => simp at h
      | text lines =>
        simp only [Option.some.injEq, Prod.mk.injEq] at h
        obtain ⟨hex, hfs, hn⟩ := h
        subst hex
        subst hfs
        have hlook := FS.lookup_save_self fs (cachePath data_path tok_name max_length)
          (FsFile.cache ((lines.map pyStrip).map (fun text => pfx ++ text) |>.map
            (fun text => tokenizer.encode text max_length pad)))
        refine ⟨?_, hlook⟩
        unfold encode_file
        rw [if_pos ⟨rfl, by rw [hlook]; rfl⟩, hlook]

theorem encode_file_cache_idempotent_witness :
    (encode_file ⟨fun s n b => ⟨[s.data.length, n], [if b then 1 else 0]⟩, false⟩
        [("train.source", FsFile.text ["hi"])] "train.source" 4 true false "" "T5"
      = some ([⟨[2, 4], [1]⟩],
          [("train.source_T54.pkl", FsFile.cache [⟨[2, 4], [1]⟩]),
           ("train.source", FsFile.text ["hi"])], 1))
    ∧ (encode_file ⟨fun s n b => ⟨[s.data.length, n], [if b then 1 else 0]⟩, false⟩
        [("train.source_T54.pkl", FsFile.cache [⟨[2, 4], [1]⟩]),
         ("train.source", FsFile.text ["hi"])] "train.source" 4 true false "" "T5"
      = some ([⟨[2, 4], [1]⟩],
          [("train.source_T54.pkl", FsFile.cache [⟨[2, 4], [1]⟩]),
           ("train.source", FsFile.text ["hi"])], 0)) := by
  refine ⟨by rfl, ?_⟩
  exact (encode_file_cache_idempotent
    ⟨fun s n b => ⟨[s.data.length, n], [if b then 1 else 0]⟩, false⟩
    [("train.source", FsFile.text ["hi"])] "train.source" 4 true "" "T5"
    [⟨[2, 4], [1]⟩]
    [("train.source_T54.pkl", FsFile.cache [⟨[2, 4], [1]⟩]),
     ("train.source", FsFile.text ["hi"])] 1 (by rfl)).1

/-- Claim C8: with no usable cache (overwrite requested or no file at the
derived cache path), `encode_file` returns exactly one encoded example per
input line, in file order — each the tokenization (with the given
pad-to-max-length flag and max length) of the stripped line with the
configured prefix prepended — and writes that same list to the derived cache
path before returning it. -/
theorem encode_file_fresh (tokenizer : Tokenizer) (fs : FS) (data_path : String)
    (max_length : Nat) (pad ow : Bool) (pfx tok_name : String) (lines : List String)
    (htext : fs.lookup data_path = some (FsFile.text lines))
    (hmiss : ow = true ∨ fs.lookup (cachePath data_path tok_name max_length) = none) :
    encode_file tokenizer fs data_path max_length pad ow pfx tok_name =
      some (lines.map (fun ln => tokenizer.encode (pfx ++ pyStrip ln) max_length pad),
        fs.save (cachePath data_path tok_name max_length)
          (FsFile.cache (lines.map
            (fun ln => tokenizer.encode (pfx ++ pyStrip ln) max_length pad))),
        lines.length) := by
  unfold encode_file
  have hcond : ¬ (ow = false ∧
      (fs.lookup (cachePath data_path tok_name max_length)).isSome = true) := by
    rcases hmiss with hmiss | hmiss
    · intro hq
      rw [hmiss] at hq
      simp at hq
    · intro hq
      rw [hmiss] at hq
      simp at hq
  rw [if_neg hcond, htext]
  simp only [List.map_map, List.length_map]
  rfl

theorem encode_file_fresh_witness :
    encode_file ⟨fun s n _ => ⟨[s.data.length, n], []⟩, true⟩
        [("d.source", FsFile.text [" hi"])] "d.source" 3 true false "x " "" =
      some ([⟨[4, 3], []⟩],
        [("d.source_3.pkl", FsFile.cache [⟨[4, 3], []⟩]),
         ("d.source", FsFile.text [" hi"])], 1) := by
  have h := encode_file_fresh ⟨fun s n _ => ⟨[s.data.length, n], []⟩, true⟩
      [("d.source", FsFile.text [" hi"])] "d.source" 3 true false "x " "" [" hi"]
      (by rfl) (Or.inr (by rfl))
  exact h

/-- Claim C9: `from_raw_data` prepends the prefix `"summarize: "` exactly when
the tokenizer is not a `BartTokenizer`, and only when encoding the source
file; the target file is always encoded with the empty prefix, for every
tokenizer.  (Stated on fresh encodes: no usable caches and distinct paths.) -/
theorem from_raw_data_prefix_only_source (tokenizer : Tokenizer) (fs : FS)
    (data_dir type_path : String) (msl mtl : Nat) (ow : Bool) (tgt_suffix : String)
    (src_lines tgt_lines : List String)
    (hsrc : fs.lookup (joinPath data_dir (type_path ++ ".source"))
      = some (FsFile.text src_lines))
    (hsrcCache : ow = true ∨ fs.lookup (cachePath (joinPath data_dir (type_path ++ ".source"))
        (if tokenizer.isBart then "" else "T5") msl) = none)
    (htgtne : (if type_path = "train"
          then joinPath data_dir (type_path ++ ".target" ++ tgt_suffix)
          else joinPath data_dir (type_path ++ ".target"))
        ≠ cachePath (joinPath data_dir (type_path ++ ".source"))
            (if tokenizer.isBart then "" else "T5") msl)
    (htgt : fs.lookup (if type_path = "train"
          then joinPath data_dir (type_path ++ ".target" ++ tgt_suffix)
          else joinPath data_dir (type_path ++ ".target")) = some (FsFile.text tgt_lines))
    (htgtcne : cachePath (if type_path = "train"
            then joinPath data_dir (type_path ++ ".target" ++ tgt_suffix)
            else joinPath data_dir (type_path ++ ".target"))
          (if tokenizer.isBart then "" else "T5") mtl
        ≠ cachePath (joinPath data_dir (type_path ++ ".source"))
            (if tokenizer.isBart then "" else "T5") msl)
    (htgtCache : ow = true ∨ fs.lookup (cachePath (if type_path = "train"
          then joinPath data_dir (type_path ++ ".target" ++ tgt_suffix)
          else joinPath data_dir (type_path ++ ".target"))
        (if tokenizer.isBart then "" else "T5") mtl) = none) :
    ∃ fs2 : FS,
      SummarizationDataset.from_raw_data tokenizer fs data_dir type_path msl mtl none ow
          tgt_suffix
        = some (⟨src_lines.map (fun ln => tokenizer.encode
              ((if tokenizer.isBart then "" else T5_PREFIX) ++ pyStrip ln) msl true),
            tgt_lines.map (fun ln => tokenizer.encode (pyStrip ln) mtl true),
            msl, mtl⟩, fs2) := by
  have hpfx : (if (if tokenizer.isBart then "" else "T5") = "T5" then T5_PREFIX else "")
      = (if tokenizer.isBart then "" else T5_PREFIX) := by
    cases tokenizer.isBart <;> decide
  have h1 := encode_file_fresh tokenizer fs (joinPath data_dir (type_path ++ ".source"))
    msl true ow (if tokenizer.isBart then "" else T5_PREFIX)
    (if tokenizer.isBart then "" else "T5") src_lines hsrc hsrcCache
  have htgt1 : (fs.save
        (cachePath (joinPath data_dir (type_path ++ ".source"))
          (if tokenizer.isBart then "" else "T5") msl)
        (FsFile.cache (src_lines.map (fun ln => tokenizer.encode
          ((if tokenizer.isBart then "" else T5_PREFIX) ++ pyStrip ln) msl true)))).lookup
      (if type_path = "train"
        then joinPath data_dir (type_path ++ ".target" ++ tgt_suffix)
        else joinPath data_dir (type_path ++ ".target")) = some (FsFile.text tgt_lines) := by
    rw [FS.lookup_save_ne fs (Ne.symm htgtne)]
    exact htgt
  have hmiss1 : ow = true ∨ (fs.save
        (cachePath (joinPath data_dir (type_path ++ ".source"))
          (if tokenizer.isBart then "" else "T5") msl)
        (FsFile.cache (src_lines.map (fun ln => tokenizer.encode
          ((if tokenizer.isBart then "" else T5_PREFIX) ++ pyStrip ln) msl true)))).lookup
      (cachePath (if type_path = "train"
          then joinPath data_dir (type_path ++ ".target" ++ tgt_suffix)
          else joinPath data_dir (type_path ++ ".target"))
        (if tokenizer.isBart then "" else "T5") mtl) = none := by
    rcases htgtCache with h | h
    · exact Or.inl h
    · refine Or.inr ?_
      rw [FS.lookup_save_ne fs (Ne.symm htgtcne)]
      exact h
  have h2 := encode_file_fresh tokenizer _ (if type_path = "train"
      then joinPath data_dir (type_path ++ ".target" ++ tgt_suffix)
      else joinPath data_dir (type_path ++ ".target"))
    mtl true ow "" (if tokenizer.isBart then "" else "T5") tgt_lines htgt1 hmiss1
  have hmain : SummarizationDataset.from_raw_data tokenizer fs data_dir type_path msl mtl
      none ow tgt_suffix
      = some (⟨src_lines.map (fun ln => tokenizer.encode
            ((if tokenizer.isBart then "" else T5_PREFIX) ++ pyStrip ln) msl true),
          tgt_lines.map (fun ln => tokenizer.encode ("" ++ pyStrip ln) mtl true),
          msl, mtl⟩,
          (fs.save
            (cachePath (joinPath data_dir (type_path ++ ".source"))
              (if tokenizer.isBart then "" else "T5") msl)
            (FsFile.cache (src_lines.map (fun ln => tokenizer.encode
              ((if tokenizer.isBart then "" else T5_PREFIX) ++ pyStrip ln) msl true)))).save
            (cachePath (if type_path = "train"
                then joinPath data_dir (type_path ++ ".target" ++ tgt_suffix)
                else joinPath data_dir (type_path ++ ".target"))
              (if tokenizer.isBart then "" else "T5") mtl)
            (FsFile.cache (tgt_lines.map
              (fun ln => tokenizer.encode ("" ++ pyStrip ln) mtl true)))) := by
    simp only [SummarizationDataset.from_raw_data, hpfx, h1]
    simp only [h2]
    rfl
  exact ⟨_, hmain⟩

theorem from_raw_data_prefix_only_source_witness :
    ∃ fs2 : FS,
      SummarizationDataset.from_raw_data ⟨fun s n _ => ⟨[s.data.length, n], []⟩, false⟩
          [("dd/train.source", FsFile.text ["x"]), ("dd/train.target", FsFile.text ["y"])]
          "dd" "train" 2 3 none false ""
        = some (⟨["x"].map (fun ln =>
              (⟨fun s n _ => ⟨[s.data.length, n], []⟩, false⟩ : Tokenizer).encode
                (T5_PREFIX ++ pyStrip ln) 2 true),
            ["y"].map (fun ln =>
              (⟨fun s n _ => ⟨[s.data.length, n], []⟩, false⟩ : Tokenizer).encode
                (pyStrip ln) 3 true),
            2, 3⟩, fs2) :=
  from_raw_data_prefix_only_source ⟨fun s n _ => ⟨[s.data.length, n], []⟩, false⟩
    [("dd/train.source", FsFile.text ["x"]), ("dd/train.target", FsFile.text ["y"])]
    "dd" "train" 2 3 false "" ["x"] ["y"]
    (by rfl) (Or.inr (by rfl)) (by decide) (by rfl) (by decide) (Or.inr (by rfl))

end SummarizationUtils
